import Mathlib

/-!
Verification of the TimeSeriesMirror broadcast server (`server.go`).

Shallow embedding of the concurrent broadcast hub: the subscriber registry
(`clients : map[string]chan []byte`), the non-blocking fan-out in `fileIn`,
the ingestion loop (dedup, classification, encoding), and the subscriber
lifecycle in `socketHandler` / `registerHandler`.  Machine bytes are `Nat`
values `< 256`; IEEE-754 doubles are carried as their 64-bit patterns
(`math.Float64bits`), which is exactly what the Go code serialises.
External collaborators (the geoip database lookup `db.City ∘ net.ParseIP`,
the websocket transport) are abstract parameters, per the spec's scope.
-/

namespace TSMirror

/-- Channel capacity: `make(chan []byte, 10)` in `registerHandler`. -/
def queueCap : Nat := 10

/-- A wire message (Go `[]byte`): a list of byte values. -/
abbrev Msg := List Nat

/-- `binary.LittleEndian.PutUint64(b[:], x)`: the 8 little-endian bytes of a
64-bit value.  In `fileIn`, `x` is `math.Float64bits(lat)` resp. `long`. -/
def putUint64LE (x : Nat) : List Nat :=
  [x % 256, x / 256 % 256, x / 65536 % 256, x / 16777216 % 256,
   x / 4294967296 % 256, x / 1099511627776 % 256,
   x / 281474976710656 % 256, x / 72057594037927936 % 256]

/-- The record built in `fileIn`:
`msg := []byte{distByte}` then `append(msg, latByte[:]...)` and
`append(msg, longByte[:]...)`.  Go's `byte(...)` conversion truncates to
8 bits, hence `% 256`. -/
def encodeRecord (dist latBits lonBits : Nat) : Msg :=
  dist % 256 :: (putUint64LE latBits ++ putUint64LE lonBits)

/-- Modelled from the spec: reading back a little-endian 64-bit value from a
byte sequence (§6 "Binary frame format").  The decoding side lives in the
client, outside `src/`. -/
def getUint64LE (bs : List Nat) : Nat :=
  (bs.take 8).foldr (fun b acc => b + 256 * acc) 0

/-- Modelled from the spec: frame decoding per §6 — byte 0 is the category
index, bytes 1-8 the latitude bits little-endian, bytes 9-16 the longitude
bits little-endian.  The decoder is client-side code not under `src/`. -/
def decodeRecord (bs : Msg) : Nat × Nat × Nat :=
  (bs.headD 0, getUint64LE (bs.drop 1), getUint64LE (bs.drop 9))

theorem getUint64LE_putUint64LE (x : Nat) (hx : x < 2 ^ 64) :
    getUint64LE (putUint64LE x) = x := by
  simp only [getUint64LE, putUint64LE, List.take, List.foldr]
  omega

/-- Claim C3: for every category index `c ∈ [0,255]` and every pair of
double bit-patterns, encoding yields exactly 17 bytes — byte 0 is `c`,
bytes 1-8 the latitude little-endian, bytes 9-16 the longitude
little-endian — and decoding those 17 bytes yields back exactly `c` and the
two bit-exact float patterns. -/
theorem claim_C3_encode_roundtrip (c lat lon : Nat)
    (hc : c ≤ 255) (hlat : lat < 2 ^ 64) (hlon : lon < 2 ^ 64) :
    (encodeRecord c lat lon).length = 17 ∧
    (encodeRecord c lat lon).headD 0 = c ∧
    ((encodeRecord c lat lon).drop 1).take 8 = putUint64LE lat ∧
    (encodeRecord c lat lon).drop 9 = putUint64LE lon ∧
    decodeRecord (encodeRecord c lat lon) = (c, lat, lon) := by
  have hcm : c % 256 = c := Nat.mod_eq_of_lt (by omega)
  refine ⟨?_, ?_, ?_, ?_, ?_⟩
  · simp [encodeRecord, putUint64LE]
  · simp [encodeRecord, hcm]
  · simp [encodeRecord, putUint64LE]
  · simp [encodeRecord, putUint64LE]
  · have h1 : (encodeRecord c lat lon).drop 1 = putUint64LE lat ++ putUint64LE lon := by
      simp [encodeRecord]
    have h9 : (encodeRecord c lat lon).drop 9 = putUint64LE lon := by
      simp [encodeRecord, putUint64LE]
    have hlat8 : getUint64LE (putUint64LE lat ++ putUint64LE lon) = getUint64LE (putUint64LE lat) := by
      simp [getUint64LE, putUint64LE]
    simp only [decodeRecord, h1, h9, hlat8,
      getUint64LE_putUint64LE lat hlat, getUint64LE_putUint64LE lon hlon]
    simp [encodeRecord, hcm]

/-- Witness for C3 at `c = 37`, latitude bits `4632937379169042432`
(the pattern of `51.5`), longitude bits `13861185172033208320`. -/
theorem claim_C3_encode_roundtrip_witness :
    (37 : Nat) ≤ 255 ∧ (4632937379169042432 : Nat) < 2 ^ 64 ∧
      (13861185172033208320 : Nat) < 2 ^ 64 ∧
      ((encodeRecord 37 4632937379169042432 13861185172033208320).length = 17 ∧
        (encodeRecord 37 4632937379169042432 13861185172033208320).headD 0 = 37 ∧
        ((encodeRecord 37 4632937379169042432 13861185172033208320).drop 1).take 8 =
          putUint64LE 4632937379169042432 ∧
        (encodeRecord 37 4632937379169042432 13861185172033208320).drop 9 =
          putUint64LE 13861185172033208320 ∧
        decodeRecord (encodeRecord 37 4632937379169042432 13861185172033208320) =
          (37, 4632937379169042432, 13861185172033208320)) :=
  ⟨by decide, by decide, by decide,
    claim_C3_encode_roundtrip 37 4632937379169042432 13861185172033208320
      (by decide) (by decide) (by decide)⟩

/-- `getIp(line)`: `strings.SplitN(line, "-", 2)[0]` — the prefix of the
line before the first `-`, or the whole line when there is none. -/
def getIp (cs : List Char) : List Char := cs.takeWhile (fun c => c != '-')

/-- ASCII fragment of `unicode.IsSpace` relevant to log lines. -/
def isSpaceChar (c : Char) : Bool := c == ' ' || c == '\t' || c == '\n' || c == '\r'

/-- `strings.TrimSpace`. -/
def trimSpace (cs : List Char) : List Char :=
  ((cs.dropWhile isSpaceChar).reverse.dropWhile isSpaceChar).reverse

/-- Helper for the pattern `\/(.*?)\/`: splits at the first `/`, returning
the characters before it and the remainder after it; `none` when the input
has no `/`. -/
def upToSlash : List Char → Option (List Char × List Char)
  | [] => none
  | c :: rest =>
    if c = '/' then some ([], rest)
    else (upToSlash rest).map (fun p => (c :: p.1, p.2))

theorem upToSlash_length :
    ∀ (cs p r : List Char), upToSlash cs = some (p, r) → r.length < cs.length := by
  intro cs
  induction cs with
  | nil => intro p r h; simp [upToSlash] at h
  | cons c rest ih =>
    intro p r h
    by_cases hc : c = '/'
    · rw [upToSlash, if_pos hc, Option.some.injEq, Prod.mk.injEq] at h
      obtain ⟨-, h2⟩ := h
      subst h2
      simp only [List.length_cons]
      omega
    · rw [upToSlash, if_neg hc] at h
      cases hrec : upToSlash rest with
      | none => rw [hrec] at h; simp at h
      | some ab =>
        rw [hrec] at h
        simp only [Option.map_some', Option.some.injEq, Prod.mk.injEq] at h
        obtain ⟨-, h2⟩ := h
        subst h2
        have := ih ab.1 ab.2 (by rw [hrec])
        simp only [List.length_cons]
        omega

/-- `regexp.MustCompile` of the pattern slash-lazy-dot-star-slash, then
`FindAllString(line, -1)` (lines 72-73 of `server.go`): the lazy pattern
matches from one `/` to the very next `/`; matches are non-overlapping,
found left to right, so they pair up consecutive `/` characters: the 1st
with the 2nd, the 3rd with the 4th, and so on.  Scanner lines contain no
newline, so the dot matches every character that occurs.  The fuel argument
(`cs.length` at the top entry, always sufficient since each step consumes
past two slashes) makes the recursion structural. -/
def slashMatchesAux : Nat → List Char → List (List Char)
  | 0, _ => []
  | fuel + 1, cs =>
    match upToSlash cs with
    | none => []
    | some po =>
      match upToSlash po.2 with
      | none => []
      | some mo => ('/' :: (mo.1 ++ ['/'])) :: slashMatchesAux fuel mo.2

/-- `reDist.FindAllString(line, -1)` in `fileIn`. -/
def slashMatches (cs : List Char) : List (List Char) := slashMatchesAux cs.length cs

/-- The `distList` literal from `fileIn`, in source order. -/
def distList : List String :=
  ["alpine", "archlinux", "archlinux32", "artix-linux", "blender", "centos",
   "clonezilla", "cpan", "cran", "ctan", "cygwin", "debian", "debian-cd",
   "eclipse", "freebsd", "gentoo", "gentoo-portage", "gparted", "ipfire",
   "isabelle", "linux", "linuxmint", "manjaro", "msys2", "odroid", "openbsd",
   "opensuse", "parrot", "raspbian", "RebornOS", "ros", "sabayon", "serenity",
   "slackware", "slitaz", "tdf", "templeos", "ubuntu", "ubuntu-cdimage",
   "ubuntu-ports", "ubuntu-releases", "videolan", "voidlinux", "zorinos"]

/-- Index lookup in a vocabulary list, `0` when absent: `distMap` is built
by `for i, dist := range distList { distMap[dist] = i }` and a Go map read
of an absent key yields the zero value `0`. -/
def lookupIdx : List String → Nat → String → Nat
  | [], _, _ => 0
  | d :: rest, i, name => if d = name then i else lookupIdx rest (i + 1) name

/-- `distMap[nfoundDistro]` in `fileIn`. -/
def distIndex (name : String) : Nat := lookupIdx distList 0 name

theorem lookupIdx_not_mem :
    ∀ (l : List String) (i : Nat) (name : String), name ∉ l → lookupIdx l i name = 0 := by
  intro l
  induction l with
  | nil => intro i name _; rfl
  | cons d rest ih =>
    intro i name h
    have hd : d ≠ name := fun he => h (by simp [he])
    rw [lookupIdx, if_neg hd]
    exact ih (i + 1) name (fun hm => h (List.mem_cons_of_mem d hm))

/-- `strings.SplitN(s, " ", -1)` followed by `strings.Join(_, "")`:
removes every space character. -/
def removeSpaces (cs : List Char) : List Char := cs.filter (fun c => c != ' ')

/-- `strings.Replace(s, "/", "", -1)`: removes every `/` character. -/
def removeSlashes (cs : List Char) : List Char := cs.filter (fun c => c != '/')

/-- Result of `db.City`: latitude/longitude carried as their
`math.Float64bits` patterns, which is all `fileIn` reads from it. -/
structure Geo where
  lat : Nat
  lon : Nat
deriving DecidableEq

/-- What one iteration of the `fileIn` scan loop does with its line. -/
inductive Event where
  | skipDup
  | skipEmpty
  | fatalResolver
  | skipFewSegments
  | published (msg : Msg)
deriving DecidableEq

/-- One iteration of the `scanner.Scan()` loop in `fileIn` on one line:
dedup against `prevIp`, empty check, the external lookup
`db.City(net.ParseIP(strings.TrimSpace(ip)))` (abstracted as `resolve`,
per the spec's external-collaborator boundary), regex segment extraction,
category cleanup and lookup, record encoding.  Returns the value `prevIp`
holds after the iteration, paired with the event. -/
def processLine (resolve : List Char → Except String Geo)
    (prevIp line : List Char) : List Char × Event :=
  let ip := getIp line
  if ip = prevIp then (prevIp, .skipDup)
  else if ip = [] then (prevIp, .skipEmpty)
  else
    match resolve (trimSpace ip) with
    | .error _ => (ip, .fatalResolver)
    | .ok g =>
      let listDistro := slashMatches line
      if h : listDistro.length < 2 then (ip, .skipFewSegments)
      else
        let nfound := removeSlashes (removeSpaces (listDistro.get ⟨1, by omega⟩))
        (ip, .published (encodeRecord (distIndex (String.mk nfound)) g.lat g.lon))

/-- The `fileIn` scan loop over a list of stdin lines, one event per
processed line.  A `db.City` error executes `return` (line 69 of
`server.go`), terminating the loop: later lines produce no event. -/
def fileInTrace (resolve : List Char → Except String Geo) :
    List Char → List (List Char) → List Event
  | _, [] => []
  | prevIp, line :: rest =>
    match processLine resolve prevIp line with
    | (_, .fatalResolver) => [.fatalResolver]
    | (p, e) => e :: fileInTrace resolve p rest

theorem processLine_dup (resolve : List Char → Except String Geo) (prevIp line : List Char)
    (h : getIp line = prevIp) :
    processLine resolve prevIp line = (prevIp, .skipDup) := by
  simp only [processLine]
  rw [if_pos h]

theorem processLine_empty (resolve : List Char → Except String Geo) (prevIp line : List Char)
    (h1 : getIp line ≠ prevIp) (h2 : getIp line = []) :
    processLine resolve prevIp line = (prevIp, .skipEmpty) := by
  simp only [processLine]
  rw [if_neg h1, if_pos h2]

theorem processLine_fatal (resolve : List Char → Except String Geo) (prevIp line : List Char)
    (h1 : getIp line ≠ prevIp) (h2 : getIp line ≠ []) (e : String)
    (hres : resolve (trimSpace (getIp line)) = .error e) :
    processLine resolve prevIp line = (getIp line, .fatalResolver) := by
  simp only [processLine]
  rw [if_neg h1, if_neg h2, hres]

theorem processLine_few (resolve : List Char → Except String Geo) (prevIp line : List Char)
    (h1 : getIp line ≠ prevIp) (h2 : getIp line ≠ []) (g : Geo)
    (hres : resolve (trimSpace (getIp line)) = .ok g)
    (hlen : (slashMatches line).length < 2) :
    processLine resolve prevIp line = (getIp line, .skipFewSegments) := by
  simp only [processLine]
  rw [if_neg h1, if_neg h2, hres]
  simp [hlen]

theorem processLine_pub (resolve : List Char → Except String Geo) (prevIp line : List Char)
    (h1 : getIp line ≠ prevIp) (h2 : getIp line ≠ []) (g : Geo)
    (hres : resolve (trimSpace (getIp line)) = .ok g)
    (hlen : 2 ≤ (slashMatches line).length) :
    processLine resolve prevIp line =
      (getIp line, .published (encodeRecord (distIndex (String.mk (removeSlashes (removeSpaces
        ((slashMatches line).get ⟨1, by omega⟩))))) g.lat g.lon)) := by
  have hnlt : ¬((slashMatches line).length < 2) := by omega
  simp only [processLine]
  rw [if_neg h1, if_neg h2, hres]
  simp [hnlt]

theorem fileInTrace_cons_fatal (resolve : List Char → Except String Geo)
    (p l : List Char) (rest : List (List Char))
    (h : (processLine resolve p l).2 = .fatalResolver) :
    fileInTrace resolve p (l :: rest) = [.fatalResolver] := by
  rcases hpr : processLine resolve p l with ⟨p', ev⟩
  rw [hpr] at h
  have hev : ev = Event.fatalResolver := h
  subst hev
  simp [fileInTrace, hpr]

theorem fileInTrace_cons_event (resolve : List Char → Except String Geo)
    (p l : List Char) (rest : List (List Char)) (p' : List Char) (ev : Event)
    (hpr : processLine resolve p l = (p', ev)) (h : ev ≠ .fatalResolver) :
    fileInTrace resolve p (l :: rest) = ev :: fileInTrace resolve p' rest := by
  cases ev with
  | fatalResolver => exact absurd rfl h
  | skipDup => simp [fileInTrace, hpr]
  | skipEmpty => simp [fileInTrace, hpr]
  | skipFewSegments => simp [fileInTrace, hpr]
  | published m => simp [fileInTrace, hpr]

/-- A resolver that always fails, as `db.City` does when handed the `nil`
result of a failed `net.ParseIP`. -/
def resolveFail : List Char → Except String Geo := fun _ => .error "lookup failed"

/-- A resolver that always succeeds with fixed coordinates (bit patterns of
`51.5` and `-0.1`). -/
def resolveOk : List Char → Except String Geo :=
  fun _ => .ok ⟨4632937379169042432, 13861185172033208320⟩

/-- Claim C5 counterexample: a resolver error on the first line does not
produce a silent skip with ingestion continuing — `fileIn` executes
`return`, so the loop dies and the second line is never ingested.  The
claim predicts two per-line events; the code produces one fatal stop. -/
theorem claim_C5_counterexample :
    fileInTrace resolveFail [] ["1.2.3.4-a".data, "5.6.7.8-b".data] = [Event.fatalResolver] ∧
      (fileInTrace resolveFail [] ["1.2.3.4-a".data, "5.6.7.8-b".data]).length ≠ 2 := by
  constructor
  · decide
  · decide

/-- Claim C5, amended: an empty extracted address, a repeated address, or a
line with fewer than two slash-delimited segments is skipped silently and
ingestion continues with the next line; but an error from the external
resolver call is fatal to the ingestion loop — the loop returns and no
further line is ingested (nothing is surfaced to subscribers in either
case). -/
theorem claim_C5_skip_vs_fatal (resolve : List Char → Except String Geo)
    (prevIp line : List Char) (rest : List (List Char)) :
    (getIp line = prevIp →
      fileInTrace resolve prevIp (line :: rest) =
        Event.skipDup :: fileInTrace resolve prevIp rest) ∧
    (getIp line ≠ prevIp → getIp line = [] →
      fileInTrace resolve prevIp (line :: rest) =
        Event.skipEmpty :: fileInTrace resolve prevIp rest) ∧
    (getIp line ≠ prevIp → getIp line ≠ [] →
      ∀ e, resolve (trimSpace (getIp line)) = .error e →
        fileInTrace resolve prevIp (line :: rest) = [Event.fatalResolver]) ∧
    (getIp line ≠ prevIp → getIp line ≠ [] →
      ∀ g, resolve (trimSpace (getIp line)) = .ok g →
        (slashMatches line).length < 2 →
        fileInTrace resolve prevIp (line :: rest) =
          Event.skipFewSegments :: fileInTrace resolve (getIp line) rest) := by
  refine ⟨?_, ?_, ?_, ?_⟩
  · intro h
    exact fileInTrace_cons_event resolve prevIp line rest prevIp Event.skipDup
      (processLine_dup resolve prevIp line h) (by decide)
  · intro h1 h2
    exact fileInTrace_cons_event resolve prevIp line rest prevIp Event.skipEmpty
      (processLine_empty resolve prevIp line h1 h2) (by decide)
  · intro h1 h2 e hres
    exact fileInTrace_cons_fatal resolve prevIp line rest
      (by rw [processLine_fatal resolve prevIp line h1 h2 e hres])
  · intro h1 h2 g hres hlen
    exact fileInTrace_cons_event resolve prevIp line rest (getIp line) Event.skipFewSegments
      (processLine_few resolve prevIp line h1 h2 g hres hlen) (by decide)

/-- Witness for the amended C5: the fatal branch on a failing resolver, and
the silent skip-and-continue branch on an empty address. -/
theorem claim_C5_skip_vs_fatal_witness :
    fileInTrace resolveFail [] ["1.2.3.4-a".data, "5.6.7.8-b".data] = [Event.fatalResolver] ∧
      fileInTrace resolveFail ['9'] ["-x".data] =
        Event.skipEmpty :: fileInTrace resolveFail ['9'] [] := by
  constructor
  · exact (claim_C5_skip_vs_fatal resolveFail [] "1.2.3.4-a".data ["5.6.7.8-b".data]).2.2.1
      (by decide) (by decide) "lookup failed" rfl
  · exact (claim_C5_skip_vs_fatal resolveFail ['9'] "-x".data []).2.1 (by decide) (by decide)

/-- Claim C6: a line with fewer than two slash-delimited matches is skipped
— no record is published for it and the loop continues — and with two or
more matches the category is extracted from the second match. -/
theorem claim_C6_second_segment (resolve : List Char → Except String Geo)
    (prevIp line : List Char) (rest : List (List Char)) (g : Geo)
    (h1 : getIp line ≠ prevIp) (h2 : getIp line ≠ [])
    (hres : resolve (trimSpace (getIp line)) = .ok g) :
    ((slashMatches line).length < 2 →
      (processLine resolve prevIp line).2 = Event.skipFewSegments ∧
      fileInTrace resolve prevIp (line :: rest) =
        Event.skipFewSegments :: fileInTrace resolve (getIp line) rest) ∧
    (∀ hlen : 2 ≤ (slashMatches line).length,
      (processLine resolve prevIp line).2 =
        Event.published (encodeRecord (distIndex (String.mk (removeSlashes (removeSpaces
          ((slashMatches line).get ⟨1, by omega⟩))))) g.lat g.lon)) := by
  constructor
  · intro hlen
    have hp := processLine_few resolve prevIp line h1 h2 g hres hlen
    exact ⟨by rw [hp], fileInTrace_cons_event resolve prevIp line rest (getIp line)
      Event.skipFewSegments hp (by decide)⟩
  · intro hlen
    have hp := processLine_pub resolve prevIp line h1 h2 g hres hlen
    rw [hp]

/-- Witness for C6 on a one-match line (skip) and a two-match line whose
second match carries the category. -/
theorem claim_C6_second_segment_witness :
    ((slashMatches "9.9.9.9-/only/ x".data).length < 2 ∧
      (processLine resolveOk [] "9.9.9.9-/only/ x".data).2 = Event.skipFewSegments) ∧
    (2 ≤ (slashMatches "9.9.9.9-/x/y/weird/".data).length ∧
      (processLine resolveOk [] "9.9.9.9-/x/y/weird/".data).2 =
        Event.published (encodeRecord (distIndex (String.mk (removeSlashes (removeSpaces
          ((slashMatches "9.9.9.9-/x/y/weird/".data).get ⟨1, by decide⟩)))))
          4632937379169042432 13861185172033208320)) := by
  refine ⟨⟨by decide, ?_⟩, ⟨by decide, ?_⟩⟩
  · exact ((claim_C6_second_segment resolveOk [] "9.9.9.9-/only/ x".data []
      ⟨4632937379169042432, 13861185172033208320⟩ (by decide) (by decide) rfl).1 (by decide)).1
  · exact (claim_C6_second_segment resolveOk [] "9.9.9.9-/x/y/weird/".data []
      ⟨4632937379169042432, 13861185172033208320⟩ (by decide) (by decide) rfl).2 (by decide)

/-- Claim C7: a classified line whose cleaned category name is outside the
vocabulary is published with category index 0, identical to the index of
the first vocabulary entry. -/
theorem claim_C7_unknown_category (resolve : List Char → Except String Geo)
    (prevIp line : List Char) (g : Geo)
    (h1 : getIp line ≠ prevIp) (h2 : getIp line ≠ [])
    (hres : resolve (trimSpace (getIp line)) = .ok g)
    (hlen : 2 ≤ (slashMatches line).length)
    (hname : String.mk (removeSlashes (removeSpaces
      ((slashMatches line).get ⟨1, by omega⟩))) ∉ distList) :
    (processLine resolve prevIp line).2 =
      Event.published (encodeRecord 0 g.lat g.lon) ∧
    distIndex (distList.headD "") = 0 := by
  have hp := processLine_pub resolve prevIp line h1 h2 g hres hlen
  constructor
  · rw [hp]
    have h0 : distIndex (String.mk (removeSlashes (removeSpaces
        ((slashMatches line).get ⟨1, by omega⟩)))) = 0 :=
      lookupIdx_not_mem distList 0 _ hname
    rw [h0]
  · decide

/-- Witness for C7: the category name `weird` is not in the vocabulary and
maps to index 0, the index of `alpine`. -/
theorem claim_C7_unknown_category_witness :
    (processLine resolveOk [] "9.9.9.9-/x/y/weird/".data).2 =
      Event.published (encodeRecord 0 4632937379169042432 13861185172033208320) ∧
    distIndex (distList.headD "") = 0 :=
  claim_C7_unknown_category resolveOk [] "9.9.9.9-/x/y/weird/".data
    ⟨4632937379169042432, 13861185172033208320⟩ (by decide) (by decide) rfl
    (by decide) (by decide)

theorem processLine_prevIp (resolve : List Char → Except String Geo) (prevIp line : List Char) :
    (processLine resolve prevIp line).1 = getIp line ∨
      ((processLine resolve prevIp line).1 = prevIp ∧
        (getIp line = prevIp ∨ getIp line = [])) := by
  by_cases hd : getIp line = prevIp
  · right
    rw [processLine_dup resolve prevIp line hd]
    exact ⟨rfl, Or.inl hd⟩
  by_cases he : getIp line = []
  · right
    rw [processLine_empty resolve prevIp line hd he]
    exact ⟨rfl, Or.inr he⟩
  cases hres : resolve (trimSpace (getIp line)) with
  | error e =>
    left
    rw [processLine_fatal resolve prevIp line hd he e hres]
  | ok g =>
    by_cases hlen : (slashMatches line).length < 2
    · left
      rw [processLine_few resolve prevIp line hd he g hres hlen]
    · left
      rw [processLine_pub resolve prevIp line hd he g hres (by omega)]

theorem processLine_skip_of_matching (resolve : List Char → Except String Geo)
    (p l : List Char) (h : getIp l = p ∨ getIp l = []) :
    (processLine resolve p l).2 = Event.skipDup ∨
      (processLine resolve p l).2 = Event.skipEmpty := by
  by_cases hd : getIp l = p
  · left
    rw [processLine_dup resolve p l hd]
  · right
    have he : getIp l = [] := h.resolve_left hd
    rw [processLine_empty resolve p l hd he]

/-- Claim C8: within a run of consecutive feed lines whose extracted
addresses are identical, every line after the first is skipped (dedup skip
or empty-address skip) before classification is re-invoked; hence only the
first line of a maximal run can produce a classification attempt — at most
one per run. -/
theorem claim_C8_dedup_run (resolve : List Char → Except String Geo) :
    ∀ (lines : List (List Char)) (p : List Char) (i : Nat) (hi : i + 1 < lines.length),
      getIp (lines.get ⟨i, by omega⟩) = getIp (lines.get ⟨i + 1, hi⟩) →
      ∀ e : Event, (fileInTrace resolve p lines).get? (i + 1) = some e →
        e = Event.skipDup ∨ e = Event.skipEmpty := by
  intro lines
  induction lines with
  | nil =>
    intro p i hi
    simp at hi
  | cons l rest ih =>
    intro p i hi hdup e he
    rcases hpr : processLine resolve p l with ⟨p', ev⟩
    by_cases hfat : ev = Event.fatalResolver
    · subst hfat
      rw [fileInTrace_cons_fatal resolve p l rest (by rw [hpr])] at he
      have hno : (none : Option Event) = some e := he
      exact Option.noConfusion hno
    · rw [fileInTrace_cons_event resolve p l rest p' ev hpr hfat] at he
      have he' : (fileInTrace resolve p' rest).get? i = some e := he
      cases i with
      | zero =>
        cases rest with
        | nil => simp at hi
        | cons l2 rest2 =>
          have hdup0 : getIp l = getIp l2 := hdup
          have hd2 : getIp l2 = p' ∨ getIp l2 = [] := by
            have hA := processLine_prevIp resolve p l
            rw [hpr] at hA
            rcases hA with hA | ⟨hA, hB | hB⟩
            · have hA1 : p' = getIp l := hA
              left
              rw [hA1, ← hdup0]
            · have hA1 : p' = p := hA
              left
              rw [hA1, ← hB, ← hdup0]
            · right
              rw [← hdup0]
              exact hB
          have hskip := processLine_skip_of_matching resolve p' l2 hd2
          rcases hpr2 : processLine resolve p' l2 with ⟨p'', ev2⟩
          rw [hpr2] at hskip
          have hfat2 : ev2 ≠ Event.fatalResolver := by
            rcases hskip with h | h
            · have h' : ev2 = Event.skipDup := h
              simp [h']
            · have h' : ev2 = Event.skipEmpty := h
              simp [h']
          rw [fileInTrace_cons_event resolve p' l2 rest2 p'' ev2 hpr2 hfat2] at he'
          have hee : some ev2 = some e := he'
          injection hee with hee
          subst hee
          exact hskip
      | succ k =>
        cases rest with
        | nil => simp at hi
        | cons l2 rest2 =>
          have hk : k + 1 < (l2 :: rest2).length := by
            simp only [List.length_cons] at hi ⊢
            omega
          have hdup' : getIp ((l2 :: rest2).get ⟨k, by omega⟩) =
              getIp ((l2 :: rest2).get ⟨k + 1, hk⟩) := hdup
          exact ih p' k hk hdup' e he'

/-- Witness for C8: two consecutive lines with the same address — the
second line's event is the dedup skip. -/
theorem claim_C8_dedup_run_witness :
    (fileInTrace resolveOk [] ["9.9.9.9-x".data, "9.9.9.9-x".data]).get? 1 =
        some Event.skipDup ∧
      (Event.skipDup = Event.skipDup ∨ Event.skipDup = Event.skipEmpty) := by
  refine ⟨by decide, ?_⟩
  exact claim_C8_dedup_run resolveOk ["9.9.9.9-x".data, "9.9.9.9-x".data] [] 0
    (by decide) (by decide) Event.skipDup (by decide)

/-- `select { case ch <- msg: default: }` (lines 103-107 of `server.go`):
the non-blocking offer to a bounded channel — append when there is room,
drop the record when the buffer is full.  Total (no error), one attempt
(no retry). -/
def tryEnqueue (q : List Msg) (msg : Msg) : List Msg :=
  if q.length < queueCap then q ++ [msg] else q

/-- The server's shared state: the registry `clients map[string]chan []byte`
plus the channel objects themselves.  A Go channel is a heap object distinct
from the map entry naming it — `socketHandler` keeps its own reference
`ch := clients[id]` — so channels live in a store keyed by an allocation
counter, and the registry maps subscriber tokens to channel ids. -/
structure Hub where
  nextChan : Nat
  chans : List (Nat × List Msg)
  clients : List (String × Nat)
deriving DecidableEq

/-- One non-blocking offer of `msg` to channel `cid` in the store. -/
def offerTo (chans : List (Nat × List Msg)) (cid : Nat) (msg : Msg) :
    List (Nat × List Msg) :=
  chans.map fun pr => if pr.1 = cid then (pr.1, tryEnqueue pr.2 msg) else pr

/-- The fan-out in `fileIn` (lines 99-109): under `clients_lock`, for every
entry of `clients`, a non-blocking enqueue of the record onto its channel. -/
def publish (h : Hub) (msg : Msg) : Hub :=
  { h with chans := h.clients.foldl (fun cs c => offerTo cs c.2 msg) h.chans }

/-- `registerHandler` (lines 155-168): creates `make(chan []byte, 10)` and
assigns `clients[id] = ch` — a Go map assignment, which overwrites any
existing entry for the same token.  The token itself comes from the
external `randstr.Hex(16)`, so it is a parameter here. -/
def registerH (h : Hub) (token : String) : Hub :=
  { nextChan := h.nextChan + 1,
    chans := h.chans ++ [(h.nextChan, [])],
    clients := (token, h.nextChan) :: h.clients.filter (fun pr => pr.1 != token) }

/-- `registerHandler`'s HTTP response: unconditionally status 200 with the
token as body — the handler has no error path. -/
def registerResponse (token : String) : Nat × String := (200, token)

/-- The deferred teardown in `socketHandler` (lines 135-142):
`conn.Close()` then, under `clients_lock`, `delete(clients, id)`.  The
channel object itself is not destroyed. -/
def socketTeardown (h : Hub) (token : String) : Hub :=
  { h with clients := h.clients.filter (fun pr => pr.1 != token) }

/-- The delivery loop of `socketHandler` (lines 144-152) with its deferred
teardown: receive `val := <-ch`, then `conn.WriteMessage(2, val)`; a failed
write breaks the loop, and the defer closes the connection and removes the
subscriber.  A session lists the received values paired with each write's
success; the result is `none` while no write has failed (the loop is still
delivering, no teardown has run) and otherwise `some` of (transport closed,
state after teardown). -/
def deliveryLoop (h : Hub) (token : String) : List (Msg × Bool) → Option (Bool × Hub)
  | [] => none
  | (_, ok) :: rest =>
    if ok then deliveryLoop h token rest
    else some (true, socketTeardown h token)

/-- The registry-touching operations of the server. -/
inductive HubOp where
  | registerOp (token : String)
  | publishOp (msg : Msg)
  | teardownOp (token : String)

def applyHubOp (h : Hub) : HubOp → Hub
  | .registerOp t => registerH h t
  | .publishOp m => publish h m
  | .teardownOp t => socketTeardown h t

/-- `ch := clients[id]` in `socketHandler`: a Go map read, which yields the
zero value — a `nil` channel, here `none` — for an absent key. -/
def lookupClient (h : Hub) (id : String) : Option Nat :=
  (h.clients.find? (fun pr => pr.1 == id)).map (fun pr => pr.2)

/-- Outcome of the pre-delivery phase of `socketHandler` (lines 113-133). -/
inductive SocketStart where
  | notFound
  | loopOn (ch : Option Nat)
deriving DecidableEq

/-- The pre-delivery phase of `socketHandler`: the 404 branch fires only
when the `{id}` path variable is empty; otherwise the handler reads
`clients[id]` (without an existence check) and proceeds to the upgrade and
the delivery loop with whatever that read produced. -/
def socketStart (h : Hub) (id : String) : SocketStart :=
  if id = "" then .notFound else .loopOn (lookupClient h id)

/-- Well-formedness the server maintains for `Hub`: channel ids come from
the allocation counter and no two subscribers share a channel. -/
structure WFHub (h : Hub) : Prop where
  cidsNodup : (h.clients.map (fun pr => pr.2)).Nodup
  cidsLt : ∀ pr ∈ h.clients, pr.2 < h.nextChan

theorem bne_of_ne {a b : String} (h : a ≠ b) : (a != b) = true := by
  simp [bne_iff_ne, h]

theorem offerTo_mem_self (chans : List (Nat × List Msg)) (cid : Nat) (q : List Msg)
    (msg : Msg) (h : (cid, q) ∈ chans) :
    (cid, tryEnqueue q msg) ∈ offerTo chans cid msg := by
  have := List.mem_map_of_mem
    (fun pr : Nat × List Msg => if pr.1 = cid then (pr.1, tryEnqueue pr.2 msg) else pr) h
  simpa [offerTo] using this

theorem offerTo_mem_other (chans : List (Nat × List Msg)) (target cid : Nat) (q : List Msg)
    (msg : Msg) (hne : cid ≠ target) (h : (cid, q) ∈ chans) :
    (cid, q) ∈ offerTo chans target msg := by
  have := List.mem_map_of_mem
    (fun pr : Nat × List Msg => if pr.1 = target then (pr.1, tryEnqueue pr.2 msg) else pr) h
  simpa [offerTo, hne] using this

theorem publish_fold (msg : Msg) :
    ∀ (cl : List (String × Nat)) (chans : List (Nat × List Msg)) (cid : Nat) (q : List Msg),
      (cl.map (fun pr => pr.2)).Nodup → (cid, q) ∈ chans →
      ((cid ∈ cl.map (fun pr => pr.2) →
          (cid, tryEnqueue q msg) ∈ cl.foldl (fun cs c => offerTo cs c.2 msg) chans) ∧
        (cid ∉ cl.map (fun pr => pr.2) →
          (cid, q) ∈ cl.foldl (fun cs c => offerTo cs c.2 msg) chans)) := by
  intro cl
  induction cl with
  | nil =>
    intro chans cid q _ hmem
    constructor
    · intro hmm
      simp at hmm
    · intro _
      simpa using hmem
  | cons c rest ih =>
    intro chans cid q hnd hmem
    simp only [List.map_cons, List.nodup_cons] at hnd
    obtain ⟨hc, hnd⟩ := hnd
    constructor
    · intro hmm
      simp only [List.foldl_cons]
      by_cases hceq : c.2 = cid
      · have h1 : (cid, tryEnqueue q msg) ∈ offerTo chans c.2 msg := by
          rw [hceq]
          exact offerTo_mem_self chans cid q msg hmem
        have hnotin : cid ∉ rest.map (fun pr => pr.2) := by
          rw [← hceq]
          exact hc
        exact (ih (offerTo chans c.2 msg) cid (tryEnqueue q msg) hnd h1).2 hnotin
      · have hmm' : cid ∈ rest.map (fun pr => pr.2) := by
          rcases List.mem_cons.mp hmm with h | h
          · exact absurd h.symm hceq
          · exact h
        have h1 : (cid, q) ∈ offerTo chans c.2 msg :=
          offerTo_mem_other chans c.2 cid q msg (fun he => hceq he.symm) hmem
        exact (ih (offerTo chans c.2 msg) cid q hnd h1).1 hmm'
    · intro hmm
      simp only [List.foldl_cons]
      have hcne : cid ≠ c.2 := by
        intro he
        exact hmm (by simp [he])
      have h1 : (cid, q) ∈ offerTo chans c.2 msg :=
        offerTo_mem_other chans c.2 cid q msg hcne hmem
      have hmm' : cid ∉ rest.map (fun pr => pr.2) := fun hin => hmm (by simp [hin])
      exact (ih (offerTo chans c.2 msg) cid q hnd h1).2 hmm'

/-- Claim C1: during one fan-out, a subscriber whose queue is full at that
moment has the record dropped for it alone — the offer leaves its queue
unchanged, is attempted once (no retry), and surfaces no error (`publish`
is total and returns normally) — while any subscriber whose queue is not
full has the record appended. -/
theorem claim_C1_drop_on_full (h : Hub) (msg : Msg) (token : String) (cid : Nat)
    (q : List Msg) (hnd : (h.clients.map (fun pr => pr.2)).Nodup)
    (hcl : (token, cid) ∈ h.clients) (hch : (cid, q) ∈ h.chans) :
    (queueCap ≤ q.length → (cid, q) ∈ (publish h msg).chans) ∧
      (q.length < queueCap → (cid, q ++ [msg]) ∈ (publish h msg).chans) := by
  have hin : cid ∈ h.clients.map (fun pr => pr.2) :=
    List.mem_map_of_mem (fun pr => pr.2) hcl
  have hfold := publish_fold msg h.clients h.chans cid q hnd hch
  constructor
  · intro hfull
    have hres := hfold.1 hin
    rw [tryEnqueue, if_neg (by omega)] at hres
    exact hres
  · intro hnotfull
    have hres := hfold.1 hin
    rw [tryEnqueue, if_pos hnotfull] at hres
    exact hres

/-- A queue at capacity: ten queued records. -/
def fullQ : List Msg := [[0], [0], [0], [0], [0], [0], [0], [0], [0], [0]]

/-- Two subscribers: `"a"` on channel 0 with a full queue, `"b"` on
channel 1 with an empty queue. -/
def hubTwo : Hub := ⟨2, [(0, fullQ), (1, [])], [("a", 0), ("b", 1)]⟩

/-- Witness for C1: publishing to `hubTwo` drops for the full subscriber
and delivers to the non-full one. -/
theorem claim_C1_drop_on_full_witness :
    ((queueCap ≤ fullQ.length → (0, fullQ) ∈ (publish hubTwo [7]).chans) ∧
        (fullQ.length < queueCap → (0, fullQ ++ [[7]]) ∈ (publish hubTwo [7]).chans)) ∧
      ((queueCap ≤ ([] : List Msg).length → (1, ([] : List Msg)) ∈ (publish hubTwo [7]).chans) ∧
        (([] : List Msg).length < queueCap → (1, [] ++ [[7]]) ∈ (publish hubTwo [7]).chans)) :=
  ⟨claim_C1_drop_on_full hubTwo [7] "a" 0 fullQ (by decide) (by decide) (by decide),
    claim_C1_drop_on_full hubTwo [7] "b" 1 [] (by decide) (by decide) (by decide)⟩

/-- Claim C4 evaluated against the code: with subscriber tokens `"a"` and
`"b"` live, the upgrade request carrying the unknown identifier `"beef"`
is not answered 404 — the handler reads the zero-value (`nil`) channel
`clients["beef"]` and proceeds toward the upgrade and the delivery loop.
Only an empty identifier takes the 404 branch. -/
theorem claim_C4_unknown_id_not_404 :
    socketStart hubTwo "beef" = SocketStart.loopOn none ∧
      socketStart hubTwo "beef" ≠ SocketStart.notFound ∧
      socketStart hubTwo "" = SocketStart.notFound :=
  ⟨by decide, by decide, by decide⟩

theorem register_keeps_key (h : Hub) (tok t : String)
    (ht : t ∈ h.clients.map (fun pr => pr.1)) :
    t ∈ (registerH h tok).clients.map (fun pr => pr.1) := by
  by_cases he : t = tok
  · simp [registerH, he]
  · obtain ⟨pr, hpr, hpr1⟩ := List.mem_map.mp ht
    apply List.mem_map.mpr
    refine ⟨pr, ?_, hpr1⟩
    show pr ∈ (tok, h.nextChan) :: h.clients.filter (fun c => c.1 != tok)
    apply List.mem_cons_of_mem
    apply List.mem_filter.mpr
    exact ⟨hpr, by rw [hpr1]; exact bne_of_ne he⟩

theorem teardown_key_removed (h : Hub) (tok t : String)
    (ht : t ∈ h.clients.map (fun pr => pr.1))
    (hnot : t ∉ (socketTeardown h tok).clients.map (fun pr => pr.1)) :
    t = tok := by
  by_contra hne
  apply hnot
  obtain ⟨pr, hpr, hpr1⟩ := List.mem_map.mp ht
  apply List.mem_map.mpr
  refine ⟨pr, ?_, hpr1⟩
  show pr ∈ h.clients.filter (fun c => c.1 != tok)
  exact List.mem_filter.mpr ⟨hpr, by rw [hpr1]; exact bne_of_ne hne⟩

theorem deliveryLoop_fail :
    ∀ (sess : List (Msg × Bool)) (h : Hub) (token : String),
      (∃ pr ∈ sess, pr.2 = false) →
      deliveryLoop h token sess = some (true, socketTeardown h token) := by
  intro sess
  induction sess with
  | nil =>
    intro h token hex
    simp at hex
  | cons s rest ih =>
    intro h token hex
    obtain ⟨m, ok⟩ := s
    cases ok with
    | false => simp [deliveryLoop]
    | true =>
      simp only [deliveryLoop, if_true]
      apply ih
      rcases hex with ⟨pr, hpr, hfail⟩
      rcases List.mem_cons.mp hpr with he | hm
      · rw [he] at hfail
        simp at hfail
      · exact ⟨pr, hm, hfail⟩

theorem deliveryLoop_none :
    ∀ (sess : List (Msg × Bool)) (h : Hub) (token : String),
      deliveryLoop h token sess = none → ∀ pr ∈ sess, pr.2 = true := by
  intro sess
  induction sess with
  | nil =>
    intro h token _ pr hpr
    simp at hpr
  | cons s rest ih =>
    intro h token hnone pr hpr
    obtain ⟨m, ok⟩ := s
    cases ok with
    | false => simp [deliveryLoop] at hnone
    | true =>
      simp only [deliveryLoop, if_true] at hnone
      rcases List.mem_cons.mp hpr with he | hm
      · rw [he]
      · exact ih h token hnone pr hm

/-- Claim C9: for a delivering subscriber, a transport write failure (which
is also how a closed connection is observed — `WriteMessage` on a closed
connection errors) triggers exactly the teardown: the loop terminates, the
deferred function closes the transport and deletes the subscriber from the
registry, leaving every other entry and all channels untouched; while no
write fails the loop keeps delivering and no teardown runs; and across all
registry-touching operations of the server, this teardown is the only one
that ever removes an entry. -/
theorem claim_C9_teardown (h : Hub) (token : String) (sess : List (Msg × Bool)) :
    ((∃ pr ∈ sess, pr.2 = false) →
      deliveryLoop h token sess = some (true, socketTeardown h token) ∧
        token ∉ (socketTeardown h token).clients.map (fun pr => pr.1) ∧
        (∀ pr ∈ h.clients, pr.1 ≠ token → pr ∈ (socketTeardown h token).clients) ∧
        (socketTeardown h token).chans = h.chans) ∧
      (deliveryLoop h token sess = none → ∀ pr ∈ sess, pr.2 = true) ∧
      (∀ (op : HubOp) (t : String),
        t ∈ h.clients.map (fun pr => pr.1) →
        t ∉ (applyHubOp h op).clients.map (fun pr => pr.1) →
        op = HubOp.teardownOp t) := by
  refine ⟨?_, deliveryLoop_none sess h token, ?_⟩
  · intro hex
    refine ⟨deliveryLoop_fail sess h token hex, ?_, ?_, rfl⟩
    · intro hmem
      obtain ⟨pr, hpr, h1⟩ := List.mem_map.mp hmem
      have hpr' : pr ∈ h.clients.filter (fun c => c.1 != token) := hpr
      obtain ⟨-, hbe⟩ := List.mem_filter.mp hpr'
      rw [h1] at hbe
      simp at hbe
    · intro pr hpr hne
      show pr ∈ h.clients.filter (fun c => c.1 != token)
      exact List.mem_filter.mpr ⟨hpr, bne_of_ne hne⟩
  · intro op t ht hnot
    cases op with
    | registerOp tok => exact absurd (register_keeps_key h tok t ht) hnot
    | publishOp m => exact absurd ht hnot
    | teardownOp tok => rw [teardown_key_removed h tok t ht hnot]

/-- Witness for C9: subscriber `"a"`, one successful write then a failed
one — the loop ends in the teardown state with `"a"` gone from the
registry. -/
theorem claim_C9_teardown_witness :
    deliveryLoop hubTwo "a" [([5], true), ([6], false)] =
        some (true, socketTeardown hubTwo "a") ∧
      "a" ∉ (socketTeardown hubTwo "a").clients.map (fun pr => pr.1) := by
  have h9 := (claim_C9_teardown hubTwo "a" [([5], true), ([6], false)]).1
    ⟨([6], false), by decide, rfl⟩
  exact ⟨h9.1, h9.2.1⟩

theorem publish_untouched (msg : Msg) (h : Hub) (cid : Nat) (q : List Msg)
    (hnotin : cid ∉ h.clients.map (fun pr => pr.2)) (hch : (cid, q) ∈ h.chans) :
    (cid, q) ∈ (publish h msg).chans := by
  have hgen : ∀ (cl : List (String × Nat)) (chans : List (Nat × List Msg)),
      cid ∉ cl.map (fun pr => pr.2) → (cid, q) ∈ chans →
      (cid, q) ∈ cl.foldl (fun cs c => offerTo cs c.2 msg) chans := by
    intro cl
    induction cl with
    | nil =>
      intro chans _ hm
      simpa using hm
    | cons c rest ih =>
      intro chans hnot hm
      have h1 : cid ≠ c.2 := by
        intro he
        exact hnot (by simp [he])
      have h2 : cid ∉ rest.map (fun pr => pr.2) := fun hin => hnot (by simp [hin])
      simp only [List.foldl_cons]
      exact ih (offerTo chans c.2 msg) h2 (offerTo_mem_other chans c.2 cid q msg h1 hm)
  exact hgen h.clients h.chans hnotin hch

theorem publishes_untouched (msgs : List Msg) :
    ∀ (h : Hub) (cid : Nat) (q : List Msg),
      cid ∉ h.clients.map (fun pr => pr.2) → (cid, q) ∈ h.chans →
      (cid, q) ∈ (msgs.foldl publish h).chans := by
  induction msgs with
  | nil =>
    intro h cid q _ hm
    simpa using hm
  | cons m rest ih =>
    intro h cid q hnot hm
    simp only [List.foldl_cons]
    exact ih (publish h m) cid q hnot (publish_untouched m h cid q hnot hm)

/-- Claim C10: registering a token that collides with a live subscriber
silently overwrites the map entry — the token now names the fresh channel
(and only it), the previous channel is referenced by no registry entry, so
every subsequent fan-out leaves its queue untouched (the old delivery
loop, still holding its channel reference, blocks on a channel that never
again receives a record), and the handler still responds 200 with the
token: no error is surfaced to either subscriber. -/
theorem claim_C10_collision (h : Hub) (token : String) (cid : Nat) (q : List Msg)
    (hwf : WFHub h) (hcl : (token, cid) ∈ h.clients) (hch : (cid, q) ∈ h.chans) :
    ((token, h.nextChan) ∈ (registerH h token).clients ∧
        (∀ c, (token, c) ∈ (registerH h token).clients → c = h.nextChan)) ∧
      cid ∉ (registerH h token).clients.map (fun pr => pr.2) ∧
      (∀ msgs : List Msg, (cid, q) ∈ (msgs.foldl publish (registerH h token)).chans) ∧
      registerResponse token = (200, token) := by
  have horphan : cid ∉ (registerH h token).clients.map (fun pr => pr.2) := by
    intro hmem
    obtain ⟨pr, hpr, h2⟩ := List.mem_map.mp hmem
    have hpr' : pr ∈ (token, h.nextChan) :: h.clients.filter (fun c => c.1 != token) := hpr
    rcases List.mem_cons.mp hpr' with he | hm
    · have hlt : cid < h.nextChan := hwf.cidsLt (token, cid) hcl
      rw [he] at h2
      have h3 : h.nextChan = cid := h2
      omega
    · obtain ⟨hmm, hbe⟩ := List.mem_filter.mp hm
      have heq : (token, cid) = pr :=
        List.inj_on_of_nodup_map hwf.cidsNodup hcl hmm (by rw [h2])
      rw [← heq] at hbe
      simp at hbe
  refine ⟨⟨?_, ?_⟩, horphan, ?_, rfl⟩
  · show (token, h.nextChan) ∈ (token, h.nextChan) :: h.clients.filter (fun c => c.1 != token)
    exact List.mem_cons_self _ _
  · intro c hc
    have hc' : (token, c) ∈ (token, h.nextChan) :: h.clients.filter (fun c2 => c2.1 != token) := hc
    rcases List.mem_cons.mp hc' with he | hm
    · have h2 := congrArg Prod.snd he
      simpa using h2
    · obtain ⟨-, hbe⟩ := List.mem_filter.mp hm
      simp at hbe
  · intro msgs
    apply publishes_untouched msgs (registerH h token) cid q horphan
    show (cid, q) ∈ h.chans ++ [(h.nextChan, [])]
    exact List.mem_append_left _ hch

/-- Witness for C10: token `"a"` (channel 0) collides; after re-register it
names channel 2, channel 0 is orphaned and untouched by later publishes. -/
theorem claim_C10_collision_witness :
    ((("a", 2) ∈ (registerH hubTwo "a").clients ∧
        (∀ c, ("a", c) ∈ (registerH hubTwo "a").clients → c = 2)) ∧
      0 ∉ (registerH hubTwo "a").clients.map (fun pr => pr.2) ∧
      (∀ msgs : List Msg, (0, fullQ) ∈ (msgs.foldl publish (registerH hubTwo "a")).chans) ∧
      registerResponse "a" = (200, "a")) :=
  claim_C10_collision hubTwo "a" 0 fullQ ⟨by decide, by decide⟩ (by decide) (by decide)

/-- An interaction on one subscriber's channel: a hub-side publish offer,
or a completed receive by the delivery loop (`val := <-ch`; a receive on
an empty channel blocks, so a completed step presupposes a queued record —
here a `deliver` on an empty queue leaves the state unchanged, the loop
still waiting). -/
inductive QOp where
  | pub (msg : Msg)
  | deliver
deriving DecidableEq

/-- FIFO semantics of one subscriber's buffered channel under a sequence
of operations, starting from (queue, already-delivered): `pub` is the
non-blocking offer of the fan-out, `deliver` the receive at the head of the
delivery loop; the second component accumulates what the delivery loop has
observed, in order. -/
def qRun : List Msg × List Msg → List QOp → List Msg × List Msg
  | s, [] => s
  | (q, out), .pub m :: ops => qRun (tryEnqueue q m, out) ops
  | (q, out), .deliver :: ops =>
    match q with
    | [] => qRun ([], out) ops
    | m :: q' => qRun (q', out ++ [m]) ops

/-- Whether no offer in `ops` ever meets a full queue, starting from `q`. -/
def noDrop : List Msg → List QOp → Bool
  | _, [] => true
  | q, .pub m :: ops => decide (q.length < queueCap) && noDrop (q ++ [m]) ops
  | q, .deliver :: ops => noDrop q.tail ops

/-- The records published in `ops`, in publish order. -/
def pubsOf (ops : List QOp) : List Msg :=
  ops.filterMap (fun op => match op with | QOp.pub m => some m | QOp.deliver => none)

theorem qRun_append :
    ∀ (ops : List QOp) (q out : List Msg), noDrop q ops = true →
      (qRun (q, out) ops).2 ++ (qRun (q, out) ops).1 = out ++ q ++ pubsOf ops := by
  intro ops
  induction ops with
  | nil =>
    intro q out _
    simp [qRun, pubsOf]
  | cons op rest ih =>
    intro q out hnd
    cases op with
    | pub m =>
      simp only [noDrop, Bool.and_eq_true, decide_eq_true_eq] at hnd
      obtain ⟨hlt, hnd⟩ := hnd
      have henq : tryEnqueue q m = q ++ [m] := by rw [tryEnqueue, if_pos hlt]
      simp only [qRun, henq]
      rw [ih (q ++ [m]) out hnd]
      simp [pubsOf, List.filterMap_cons, List.append_assoc]
    | deliver =>
      cases q with
      | nil =>
        simp only [noDrop, List.tail_nil] at hnd
        simp only [qRun]
        rw [ih [] out hnd]
        simp [pubsOf, List.filterMap_cons]
      | cons m q' =>
        simp only [noDrop, List.tail_cons] at hnd
        simp only [qRun]
        rw [ih q' (out ++ [m]) hnd]
        simp [pubsOf, List.filterMap_cons, List.append_assoc]

/-- Claim C2: for a single subscriber whose queue never becomes full while
records are published, the delivery loop observes the records in exactly
the publish order — the delivered sequence is always a prefix of the
published sequence, and once the queue is drained it is the entire
published sequence, in order (FIFO per queue). -/
theorem claim_C2_fifo_order (ops : List QOp) (hnd : noDrop [] ops = true) :
    (qRun ([], []) ops).2 ++ (qRun ([], []) ops).1 = pubsOf ops ∧
      (∃ rest, (qRun ([], []) ops).2 ++ rest = pubsOf ops) ∧
      ((qRun ([], []) ops).1 = [] → (qRun ([], []) ops).2 = pubsOf ops) := by
  have h := qRun_append ops [] [] hnd
  simp only [List.append_nil, List.nil_append] at h
  refine ⟨h, ⟨(qRun ([], []) ops).1, h⟩, ?_⟩
  intro hq
  rw [hq, List.append_nil] at h
  exact h

/-- Witness for C2: publish `[1]` then `[2]`, deliver both — delivered in
exactly that order. -/
theorem claim_C2_fifo_order_witness :
    noDrop [] [QOp.pub [1], QOp.pub [2], QOp.deliver, QOp.deliver] = true ∧
      ((qRun ([], []) [QOp.pub [1], QOp.pub [2], QOp.deliver, QOp.deliver]).2 ++
          (qRun ([], []) [QOp.pub [1], QOp.pub [2], QOp.deliver, QOp.deliver]).1 =
            pubsOf [QOp.pub [1], QOp.pub [2], QOp.deliver, QOp.deliver] ∧
        (∃ rest, (qRun ([], []) [QOp.pub [1], QOp.pub [2], QOp.deliver, QOp.deliver]).2 ++ rest =
            pubsOf [QOp.pub [1], QOp.pub [2], QOp.deliver, QOp.deliver]) ∧
        ((qRun ([], []) [QOp.pub [1], QOp.pub [2], QOp.deliver, QOp.deliver]).1 = [] →
          (qRun ([], []) [QOp.pub [1], QOp.pub [2], QOp.deliver, QOp.deliver]).2 =
            pubsOf [QOp.pub [1], QOp.pub [2], QOp.deliver, QOp.deliver])) :=
  ⟨by decide, claim_C2_fifo_order [QOp.pub [1], QOp.pub [2], QOp.deliver, QOp.deliver] (by decide)⟩

end TSMirror
